import Mathlib

/-!
Shallow embedding of the merge worker (src/index.ts of the batched version):
quota tracking, relayer backoff parsing, balance scanning and candidate
classification, batch building, and the per-batch execute/retry loop, together
with the orchestrator batch loop. External effects (the relayer, the chain
reads, timers) are modelled as explicit outcome oracles; machine integers and
bigint balances are modelled as Nat; timestamps are Nat milliseconds.
-/

namespace PmMerge

/-! ### Character and string helpers

The source matches relayer error text with the JavaScript regex
/resets in (\d+) seconds/i and with String.prototype.includes.
Characters are handled over List Char; lcChar models ASCII lowercase
folding as used by the case-insensitive regex flag.
-/

def isDigitChar (c : Char) : Bool :=
  (48 ≤ c.toNat) && (c.toNat ≤ 57)

def lcChar (c : Char) : Char :=
  if 65 ≤ c.toNat ∧ c.toNat ≤ 90 then Char.ofNat (c.toNat + 32) else c

/-- Case-insensitive pattern match at the head of the haystack: the pattern is
given lowercase; on success returns the remainder of the haystack. -/
def ciPrefixRest : List Char → List Char → Option (List Char)
  | [], rest => some rest
  | _ :: _, [] => none
  | p :: ps, h :: hs => if lcChar h = p then ciPrefixRest ps hs else none

/-- Case-sensitive prefix test, used to model String.prototype.includes. -/
def charsPrefixOf : List Char → List Char → Bool
  | [], _ => true
  | _ :: _, [] => false
  | a :: as, b :: bs => (a == b) && charsPrefixOf as bs

/-- Substring containment, modelling String.prototype.includes. -/
def containsSub (needle : List Char) : List Char → Bool
  | [] => charsPrefixOf needle []
  | h :: t => charsPrefixOf needle (h :: t) || containsSub needle t

/-- Value of a digit string, as Number() computes it on a digit-only match. -/
def digitsToNat (ds : List Char) : Nat :=
  ds.foldl (fun acc c => acc * 10 + (c.toNat - 48)) 0

def resetPat : List Char := "resets in ".data

def secondsPat : List Char := " seconds".data

def exhaustPat : List Char := "0 units remaining".data

/-- One anchored attempt of the regex /resets in (\d+) seconds/i at the head of
the character list: the literal prefix (case-insensitively), then a non-empty
maximal digit run, then the literal " seconds" (case-insensitively). -/
def matchResetAt (cs : List Char) : Option Nat :=
  match ciPrefixRest resetPat cs with
  | none => none
  | some rest =>
    let ds := rest.takeWhile isDigitChar
    if ds = [] then none
    else
      match ciPrefixRest secondsPat (rest.drop ds.length) with
      | none => none
      | some _ => some (digitsToNat ds)

/-- Left-to-right scan of regex exec: first position where the anchored match
succeeds. -/
def scanReset : List Char → Option Nat
  | [] => none
  | c :: rest =>
    match matchResetAt (c :: rest) with
    | some n => some n
    | none => scanReset rest

/-! ### Relayer errors and backoff (getRelayerBackoffMs, lines 31-50) -/

/-- The fields of a relayer error object the source inspects:
err.status, err.data.error, err.error, err.message. -/
structure RelayError where
  status : Option Nat
  dataError : Option String
  error : Option String
  message : Option String
deriving DecidableEq

/-- JavaScript a || b falls through on undefined and on the empty string. -/
def orElseNonEmpty (a : Option String) (b : String) : String :=
  match a with
  | some s => if s = "" then b else s
  | none => b

/-- The message the backoff parser examines:
err.data.error || err.error || err.message || "". -/
def errMessage (e : RelayError) : String :=
  orElseNonEmpty e.dataError (orElseNonEmpty e.error (orElseNonEmpty e.message ""))

/-- getRelayerBackoffMs: null unless status is 429; with a parseable
"resets in N seconds" hint, (N + 5) * 1000 ms; otherwise 60000 ms. -/
def getRelayerBackoffMs (e : RelayError) : Option Nat :=
  if e.status = some 429 then
    match scanReset (errMessage e).data with
    | some n => some ((n + 5) * 1000)
    | none => some 60000
  else none

/-- The quota-exhaustion test of the retry loop:
errData?.data?.error?.includes("0 units remaining") — it reads only the
data.error field. -/
def isQuotaExhausted (e : RelayError) : Bool :=
  match e.dataError with
  | some s => containsSub exhaustPat s.data
  | none => false

/-! ### Quota tracker (lines 86-116) -/

def hourMs : Nat := 3600000

structure QuotaTracker where
  callsThisHour : Nat
  hourStartTime : Nat
deriving DecidableEq

/-- checkAndUpdateQuota: reset the window if an hour has elapsed, then report
whether the counter is below the configured limit. Returns the flag together
with the updated state. -/
def checkAndUpdateQuota (limit now : Nat) (q : QuotaTracker) : Bool × QuotaTracker :=
  let q1 := if hourMs ≤ now - q.hourStartTime then ⟨0, now⟩ else q
  (decide (q1.callsThisHour < limit), q1)

def incrementQuota (q : QuotaTracker) : QuotaTracker :=
  ⟨q.callsThisHour + 1, q.hourStartTime⟩

/-! ### Candidate scanning (lines 199-225) -/

/-- The market metadata fields the core logic reads. -/
structure MarketMetadata where
  yesTokenId : String
  noTokenId : String
  conditionId : String
  marketSlug : Option String
deriving DecidableEq

structure MergeCandidate where
  market : MarketMetadata
  minBalance : Nat
deriving DecidableEq

/-- Outcome of the two balanceOf reads for one market: either both values, or
the rejection caught at lines 220-222. -/
inductive BalanceRead where
  | ok (yesBalance noBalance : Nat)
  | readFailed
deriving DecidableEq

structure ScanResult where
  candidates : List MergeCandidate
  skippedZero : Nat
  skippedBelowMin : Nat
deriving DecidableEq

/-- balances.yesBalance < balances.noBalance ? yesBalance : noBalance -/
def minBal (y n : Nat) : Nat := if y < n then y else n

/-- The phase-1 scan loop: classify each market by its minimum balance, keep
eligible candidates in input order, count the two skip categories, and drop a
market whose balance read failed (the catch block only logs). -/
def scanMarkets (minAmount : Nat) : List (MarketMetadata × BalanceRead) → ScanResult
  | [] => ⟨[], 0, 0⟩
  | (m, r) :: rest =>
    let s := scanMarkets minAmount rest
    match r with
    | .readFailed => s
    | .ok y n =>
      let mb := minBal y n
      if mb = 0 then ⟨s.candidates, s.skippedZero + 1, s.skippedBelowMin⟩
      else if mb < minAmount then ⟨s.candidates, s.skippedZero, s.skippedBelowMin + 1⟩
      else ⟨⟨m, mb⟩ :: s.candidates, s.skippedZero, s.skippedBelowMin⟩

/-! ### Batch building (lines 239-250)

The loop takes candidates.slice(i, i + BATCH_SIZE) for i = 0, B, 2B, ...,
which is the contiguous chunking below. Fuel bounds the recursion; the input
length is always enough fuel when the chunk size is positive.
-/

def buildBatchesAux (bs : Nat) : Nat → List MergeCandidate → List (List MergeCandidate)
  | _, [] => []
  | 0, _ :: _ => []
  | fuel + 1, l@(_ :: _) => l.take bs :: buildBatchesAux bs fuel (l.drop bs)

def buildBatches (bs : Nat) (l : List MergeCandidate) : List (List MergeCandidate) :=
  buildBatchesAux bs l.length l

/-! ### Per-batch execute/retry loop (lines 281-329)

The environment oracle maps the attempt counter value at submission time to
what happens to that submission: the relayer.execute call rejects, or it
resolves and response.wait() yields null, rejects, or yields a result object
with a state string and optional transaction hash.
-/

inductive ExecOutcome where
  | execThrows (e : RelayError)
  | waitNull
  | waitThrows (e : RelayError)
  | waitResult (state : String) (txHash : Option String)

/-- Aggregate effect of running the retry loop on one batch: number of
relayer.execute calls made, number of incrementQuota calls, the additions to
mergedCount and errorCount, whether the quota was force-marked exhausted, and
whether the batch succeeded. -/
structure RunResult where
  sends : Nat
  increments : Nat
  merged : Nat
  errored : Nat
  exhausted : Bool
  succeeded : Bool
deriving DecidableEq

/-- The while loop with fuel = maxAttempts - attempts. Each level sends once;
incrementQuota runs only after relayer.execute resolves; a null result throws
after the increment and its error carries no status; a caught error first
bumps attempts, then retries only when rate-limited (backoff non-null), not
quota-exhausting, and attempts remain. -/
def runBatchAux (maxAttempts batchSize : Nat) (env : Nat → ExecOutcome) :
    Nat → Nat → RunResult
  | 0, _ => ⟨0, 0, 0, 0, false, false⟩
  | fuel + 1, attempts =>
    match env attempts with
    | .waitResult _ _ => ⟨1, 1, batchSize, 0, false, true⟩
    | .waitNull => ⟨1, 1, 0, batchSize, false, false⟩
    | .waitThrows e =>
      match getRelayerBackoffMs e with
      | some _ =>
        if isQuotaExhausted e then ⟨1, 1, 0, batchSize, true, false⟩
        else if attempts + 1 < maxAttempts then
          let r := runBatchAux maxAttempts batchSize env fuel (attempts + 1)
          ⟨r.sends + 1, r.increments + 1, r.merged, r.errored, r.exhausted, r.succeeded⟩
        else ⟨1, 1, 0, batchSize, false, false⟩
      | none => ⟨1, 1, 0, batchSize, false, false⟩
    | .execThrows e =>
      match getRelayerBackoffMs e with
      | some _ =>
        if isQuotaExhausted e then ⟨1, 0, 0, batchSize, true, false⟩
        else if attempts + 1 < maxAttempts then
          let r := runBatchAux maxAttempts batchSize env fuel (attempts + 1)
          ⟨r.sends + 1, r.increments, r.merged, r.errored, r.exhausted, r.succeeded⟩
        else ⟨1, 0, 0, batchSize, false, false⟩
      | none => ⟨1, 0, 0, batchSize, false, false⟩

/-- The retry loop as the source runs it: const maxAttempts = 3, attempts
starting from 0. -/
def runBatch (batchSize : Nat) (env : Nat → ExecOutcome) : RunResult :=
  runBatchAux 3 batchSize env 3 0

/-- An execute call that resolved (so incrementQuota ran for it), as opposed
to one whose promise rejected. -/
def resolves : ExecOutcome → Bool
  | .execThrows _ => false
  | _ => true

/-- How many of the n attempt outcomes starting at index start resolve. -/
def countResolvedFrom (env : Nat → ExecOutcome) : Nat → Nat → Nat
  | _, 0 => 0
  | start, n + 1 =>
    (if resolves (env start) then 1 else 0) + countResolvedFrom env (start + 1) n

/-- An attempt outcome that makes the retry loop sleep and re-enter: an error
(raised by the execute call itself or by the result wait of a resolved
execute) that carries a rate-limit backoff and does not report quota
exhaustion. -/
def retryStep (o : ExecOutcome) : Prop :=
  ∃ e, (o = ExecOutcome.execThrows e ∨ o = ExecOutcome.waitThrows e)
    ∧ (getRelayerBackoffMs e).isSome = true ∧ isQuotaExhausted e = false

/-- An attempt outcome that triggers the exhaustion override: a rate-limited
error — again either from the execute call or from the result wait — whose
data.error field reports zero units remaining. -/
def exhaustReject (o : ExecOutcome) : Prop :=
  ∃ e, (o = ExecOutcome.execThrows e ∨ o = ExecOutcome.waitThrows e)
    ∧ e.status = some 429 ∧ isQuotaExhausted e = true

/-! ### Orchestrator batch loop (lines 239-244, 284-335)

One cycle submits the batches in order; before each batch it re-checks the
quota and breaks out of the loop when the check fails; after a batch it folds
the quota effects of the retry loop into the tracker (the exhaustion override
force-sets the counter to the limit, otherwise the increments accumulate).
-/

structure BatchSpec where
  now : Nat
  size : Nat
  env : Nat → ExecOutcome

def applyRun (limit : Nat) (q : QuotaTracker) (r : RunResult) : QuotaTracker :=
  if r.exhausted then ⟨limit, q.hourStartTime⟩
  else ⟨q.callsThisHour + r.increments, q.hourStartTime⟩

/-- Processes the batch list of one cycle: returns the per-batch run results
paired with the tracker state after each submitted batch, and the final
tracker state. Batches after a failed quota check are not submitted. -/
def processBatches (limit : Nat) (q : QuotaTracker) :
    List BatchSpec → List (RunResult × QuotaTracker) × QuotaTracker
  | [] => ([], q)
  | b :: rest =>
    let c := checkAndUpdateQuota limit b.now q
    if c.1 then
      let r := runBatch b.size b.env
      let q2 := applyRun limit c.2 r
      let next := processBatches limit q2 rest
      ((r, q2) :: next.1, next.2)
    else ([], c.2)

/-! ### Spec-side description of the reset hint

The specification describes the retry hint as an embedded machine-readable
phrase of the form "resets in N seconds" inside the error message, matched
case-insensitively. The two predicates below state that shape directly, to be
compared with the scanning parser scanReset taken from the source.
-/

/-- The spec phrase anchored at the head of the character list: a
case-insensitive match of "resets in ", a non-empty run of digits with value
n, then a case-insensitive match of " seconds". -/
def specResetHintAt (cs : List Char) (n : Nat) : Prop :=
  ∃ p ds s post, cs = p ++ ds ++ s ++ post
    ∧ p.map lcChar = resetPat
    ∧ ds ≠ []
    ∧ (∀ c ∈ ds, isDigitChar c = true)
    ∧ s.map lcChar = secondsPat
    ∧ digitsToNat ds = n

/-- The message contains the spec phrase somewhere. -/
def specHasResetHint (cs : List Char) (n : Nat) : Prop :=
  ∃ pre suf, cs = pre ++ suf ∧ specResetHintAt suf n

/-! ### Concrete sample data for witnesses and counterexamples -/

def mEx : MarketMetadata := ⟨"111", "222", "0xcond1", none⟩

def l23 : List MergeCandidate := (List.range 23).map (fun i => ⟨mEx, i + 1⟩)

/-- A persistent plain rate-limit rejection: status 429, no reset hint, no
exhaustion text. -/
def e429 : RelayError := ⟨some 429, none, none, some "rate limited"⟩

/-- A 429 rejection whose data.error field reports relay-side exhaustion. -/
def eExh : RelayError := ⟨some 429, some "Rate limit: 0 units remaining", none, none⟩

/-- A 429 rejection that reports exhaustion, but only in its message field,
not in data.error. -/
def eMsgOnly : RelayError := ⟨some 429, none, none, some "merge rejected, 0 units remaining"⟩

/-- A 429 rejection with a parseable reset hint. -/
def eHint : RelayError := ⟨some 429, none, none, some "resets in 12 seconds"⟩

/-- A 429 rejection without a parseable reset hint. -/
def eNoHint : RelayError := ⟨some 429, none, none, some "slow down"⟩

/-- A non-rate-limit failure that happens to carry the hint text. -/
def eServer : RelayError := ⟨some 500, none, none, some "resets in 12 seconds"⟩

def env429 : Nat → ExecOutcome := fun _ => .execThrows e429

def envExh : Nat → ExecOutcome := fun _ => .execThrows eExh

def envMsgOnly : Nat → ExecOutcome := fun _ => .execThrows eMsgOnly

/-- First submission resolves but its wait rejects with a plain 429; the
retried submission succeeds. -/
def envC5 : Nat → ExecOutcome :=
  fun i => if i = 0 then .waitThrows e429 else .waitResult "STATE_MINED" none

/-- Every submission resolves to a non-null result whose state denotes an
on-chain failure. -/
def envFailedState : Nat → ExecOutcome := fun _ => .waitResult "STATE_FAILED" none

/-- Every submission resolves but the handle yields a null result. -/
def envNullRes : Nat → ExecOutcome := fun _ => .waitNull

/-- First submission resolves but its wait rejects with a plain retryable 429;
the retried submission is rejected by the relay with the exhaustion error. -/
def envRetryExh : Nat → ExecOutcome :=
  fun i => if i = 0 then .waitThrows e429 else .execThrows eExh

/-! ### Lemmas about the retry loop -/

lemma backoff_isSome_of_429 (e : RelayError) (h : e.status = some 429) :
    (getRelayerBackoffMs e).isSome := by
  unfold getRelayerBackoffMs
  rw [if_pos h]
  cases scanReset (errMessage e).data <;> simp

lemma runBatchAux_increments_le (m size : Nat) (env : Nat → ExecOutcome) :
    ∀ fuel attempts, (runBatchAux m size env fuel attempts).increments ≤ fuel := by
  intro fuel
  induction fuel with
  | zero => intro attempts; simp [runBatchAux]
  | succ f ih =>
    intro attempts
    rcases henv : env attempts with e | _ | e | ⟨st, hx⟩
    · simp only [runBatchAux, henv]
      cases hb : getRelayerBackoffMs e
      · simp
      · simp only [hb]
        by_cases hq : isQuotaExhausted e
        · simp [hq]
        · by_cases hlt : attempts + 1 < m
          · simp only [hq, hlt, Bool.false_eq_true, if_false, if_true]
            have := ih (attempts + 1)
            omega
          · simp [hq, hlt]
    · simp [runBatchAux, henv]
    · simp only [runBatchAux, henv]
      cases hb : getRelayerBackoffMs e
      · simp
      · simp only [hb]
        by_cases hq : isQuotaExhausted e
        · simp [hq]
        · by_cases hlt : attempts + 1 < m
          · simp only [hq, hlt, Bool.false_eq_true, if_false, if_true]
            have := ih (attempts + 1)
            omega
          · simp [hq, hlt]
    · simp [runBatchAux, henv]

lemma runBatchAux_merged_errored (m size : Nat) (env : Nat → ExecOutcome) :
    ∀ fuel attempts, 0 < fuel → fuel + attempts = m →
      (runBatchAux m size env fuel attempts).merged
        + (runBatchAux m size env fuel attempts).errored = size := by
  intro fuel
  induction fuel with
  | zero => intro attempts h1 _; exact absurd h1 (Nat.lt_irrefl 0)
  | succ f ih =>
    intro attempts _ h2
    rcases henv : env attempts with e | _ | e | ⟨st, hx⟩
    · simp only [runBatchAux, henv]
      cases hb : getRelayerBackoffMs e
      · simp
      · simp only [hb]
        by_cases hq : isQuotaExhausted e
        · simp [hq]
        · by_cases hlt : attempts + 1 < m
          · simp only [hq, hlt, Bool.false_eq_true, if_false, if_true]
            have := ih (attempts + 1) (by omega) (by omega)
            simpa using this
          · simp [hq, hlt]
    · simp [runBatchAux, henv]
    · simp only [runBatchAux, henv]
      cases hb : getRelayerBackoffMs e
      · simp
      · simp only [hb]
        by_cases hq : isQuotaExhausted e
        · simp [hq]
        · by_cases hlt : attempts + 1 < m
          · simp only [hq, hlt, Bool.false_eq_true, if_false, if_true]
            have := ih (attempts + 1) (by omega) (by omega)
            simpa using this
          · simp [hq, hlt]
    · simp [runBatchAux, henv]

lemma runBatchAux_persistent (m size : Nat) (env : Nat → ExecOutcome)
    (h : ∀ i, ∃ e, env i = ExecOutcome.execThrows e ∧ e.status = some 429
      ∧ isQuotaExhausted e = false) :
    ∀ fuel attempts, 0 < fuel → attempts + fuel = m →
      runBatchAux m size env fuel attempts = ⟨fuel, 0, 0, size, false, false⟩ := by
  intro fuel
  induction fuel with
  | zero => intro attempts h1 _; exact absurd h1 (Nat.lt_irrefl 0)
  | succ f ih =>
    intro attempts _ h2
    obtain ⟨e, henv, hs, hq⟩ := h attempts
    obtain ⟨v, hv⟩ := Option.isSome_iff_exists.mp (backoff_isSome_of_429 e hs)
    simp only [runBatchAux, henv, hv, hq, Bool.false_eq_true, if_false]
    cases f with
    | zero =>
      rw [if_neg (by omega)]
    | succ f2 =>
      rw [if_pos (by omega)]
      have := ih (attempts + 1) (Nat.succ_pos f2) (by omega)
      simp [this]

lemma runBatchAux_exhaust_at (m size : Nat) (env : Nat → ExecOutcome) :
    ∀ (k fuel attempts : Nat), k + 1 ≤ fuel → attempts + fuel = m →
      (∀ i, i < k → retryStep (env (attempts + i))) →
      exhaustReject (env (attempts + k)) →
      runBatchAux m size env fuel attempts
        = ⟨k + 1, countResolvedFrom env attempts (k + 1), 0, size, true, false⟩ := by
  intro k
  induction k with
  | zero =>
    intro fuel attempts hf hm _ hex
    obtain ⟨e, hor, hs, hq⟩ := hex
    rw [Nat.add_zero] at hor
    obtain ⟨f, rfl⟩ : ∃ f, fuel = f + 1 := ⟨fuel - 1, by omega⟩
    obtain ⟨v, hv⟩ := Option.isSome_iff_exists.mp (backoff_isSome_of_429 e hs)
    rcases hor with hor | hor
    · simp [runBatchAux, hor, hv, hq, countResolvedFrom, resolves]
    · simp [runBatchAux, hor, hv, hq, countResolvedFrom, resolves]
  | succ j ih =>
    intro fuel attempts hf hm hretry hex
    obtain ⟨f, rfl⟩ : ∃ f, fuel = f + 1 := ⟨fuel - 1, by omega⟩
    obtain ⟨e, hor, hbs, hq⟩ := hretry 0 (Nat.succ_pos j)
    rw [Nat.add_zero] at hor
    obtain ⟨v, hv⟩ := Option.isSome_iff_exists.mp hbs
    have hlt : attempts + 1 < m := by omega
    have ihr := ih f (attempts + 1) (by omega) (by omega)
      (fun i hi => by
        have h2 := hretry (i + 1) (by omega)
        rwa [show attempts + (i + 1) = attempts + 1 + i by omega] at h2)
      (by
        have h2 := hex
        rwa [show attempts + (j + 1) = attempts + 1 + j by omega] at h2)
    rcases hor with hor | hor
    · simp only [runBatchAux, hor, hv, hq, Bool.false_eq_true, if_false, hlt,
        if_true, ihr]
      simp [countResolvedFrom, resolves, hor]
    · simp only [runBatchAux, hor, hv, hq, Bool.false_eq_true, if_false, hlt,
        if_true, ihr]
      simp [countResolvedFrom, resolves, hor, RunResult.mk.injEq]
      omega

lemma runBatchAux_exhausted_errored (m size : Nat) (env : Nat → ExecOutcome) :
    ∀ fuel attempts, (runBatchAux m size env fuel attempts).exhausted = true →
      (runBatchAux m size env fuel attempts).errored = size
    ∧ (runBatchAux m size env fuel attempts).merged = 0
    ∧ (runBatchAux m size env fuel attempts).succeeded = false := by
  intro fuel
  induction fuel with
  | zero => intro attempts h; simp [runBatchAux] at h
  | succ f ih =>
    intro attempts h
    rcases henv : env attempts with e | _ | e | ⟨st, hx⟩
    · simp only [runBatchAux, henv] at h ⊢
      cases hb : getRelayerBackoffMs e
      · simp [hb] at h
      · simp only [hb] at h ⊢
        by_cases hq : isQuotaExhausted e
        · simp [hq] at h ⊢
        · by_cases hlt : attempts + 1 < m
          · simp only [hq, Bool.false_eq_true, if_false, hlt, if_true] at h ⊢
            exact ih (attempts + 1) h
          · simp [hq, hlt] at h
    · simp [runBatchAux, henv] at h
    · simp only [runBatchAux, henv] at h ⊢
      cases hb : getRelayerBackoffMs e
      · simp [hb] at h
      · simp only [hb] at h ⊢
        by_cases hq : isQuotaExhausted e
        · simp [hq] at h ⊢
        · by_cases hlt : attempts + 1 < m
          · simp only [hq, Bool.false_eq_true, if_false, hlt, if_true] at h ⊢
            exact ih (attempts + 1) h
          · simp [hq, hlt] at h
    · simp [runBatchAux, henv] at h

lemma runBatchAux_increments_count (m size : Nat) (env : Nat → ExecOutcome) :
    ∀ fuel attempts,
      (runBatchAux m size env fuel attempts).increments
        = countResolvedFrom env attempts (runBatchAux m size env fuel attempts).sends := by
  intro fuel
  induction fuel with
  | zero => intro attempts; simp [runBatchAux, countResolvedFrom]
  | succ f ih =>
    intro attempts
    rcases henv : env attempts with e | _ | e | ⟨st, hx⟩
    · simp only [runBatchAux, henv]
      cases hb : getRelayerBackoffMs e
      · simp [countResolvedFrom, resolves, henv]
      · simp only [hb]
        by_cases hq : isQuotaExhausted e
        · simp [hq, countResolvedFrom, resolves, henv]
        · by_cases hlt : attempts + 1 < m
          · simp only [hq, hlt, Bool.false_eq_true, if_false, if_true]
            have h3 := ih (attempts + 1)
            simp [countResolvedFrom, resolves, henv]
            omega
          · simp [hq, hlt, countResolvedFrom, resolves, henv]
    · simp [runBatchAux, henv, countResolvedFrom, resolves]
    · simp only [runBatchAux, henv]
      cases hb : getRelayerBackoffMs e
      · simp [countResolvedFrom, resolves, henv]
      · simp only [hb]
        by_cases hq : isQuotaExhausted e
        · simp [hq, countResolvedFrom, resolves, henv]
        · by_cases hlt : attempts + 1 < m
          · simp only [hq, hlt, Bool.false_eq_true, if_false, if_true]
            have h3 := ih (attempts + 1)
            simp [countResolvedFrom, resolves, henv]
            omega
          · simp [hq, hlt, countResolvedFrom, resolves, henv]
    · simp [runBatchAux, henv, countResolvedFrom, resolves]

/-! ### Lemmas about the scan loop -/

lemma scanMarkets_spec (minAmount : Nat) :
    ∀ inputs : List (MarketMetadata × BalanceRead),
      (scanMarkets minAmount inputs).candidates = inputs.filterMap (fun pr =>
        match pr.2 with
        | .ok y n =>
          if 0 < minBal y n ∧ minAmount ≤ minBal y n then some ⟨pr.1, minBal y n⟩ else none
        | .readFailed => none)
    ∧ (scanMarkets minAmount inputs).skippedZero = inputs.countP (fun pr =>
        match pr.2 with
        | .ok y n => minBal y n == 0
        | .readFailed => false)
    ∧ (scanMarkets minAmount inputs).skippedBelowMin = inputs.countP (fun pr =>
        match pr.2 with
        | .ok y n => decide (0 < minBal y n ∧ minBal y n < minAmount)
        | .readFailed => false) := by
  intro inputs
  induction inputs with
  | nil => refine ⟨rfl, rfl, rfl⟩
  | cons head tail ih =>
    obtain ⟨m, r⟩ := head
    obtain ⟨hc, hz, hb⟩ := ih
    cases r with
    | readFailed =>
      refine ⟨?_, ?_, ?_⟩ <;>
        simp [scanMarkets, List.filterMap_cons, List.countP_cons, hc, hz, hb]
    | ok y n =>
      by_cases h0 : minBal y n = 0
      · refine ⟨?_, ?_, ?_⟩ <;>
          simp [scanMarkets, List.filterMap_cons, List.countP_cons, h0, hc, hz, hb]
      · by_cases h1 : minBal y n < minAmount
        · have hcond : ¬(0 < minBal y n ∧ minAmount ≤ minBal y n) := by omega
          have hbelow : 0 < minBal y n ∧ minBal y n < minAmount := by omega
          refine ⟨?_, ?_, ?_⟩ <;>
            simp [scanMarkets, List.filterMap_cons, List.countP_cons, h0, h1, hcond,
              hbelow, hc, hz, hb]
        · have hcond : 0 < minBal y n ∧ minAmount ≤ minBal y n := by omega
          have hnb : ¬(0 < minBal y n ∧ minBal y n < minAmount) := by omega
          refine ⟨?_, ?_, ?_⟩ <;>
            simp [scanMarkets, List.filterMap_cons, List.countP_cons, h0, h1, hcond,
              hnb, hc, hz, hb]

lemma scanMarkets_total (minAmount : Nat) :
    ∀ inputs : List (MarketMetadata × BalanceRead),
      (scanMarkets minAmount inputs).candidates.length
        + (scanMarkets minAmount inputs).skippedZero
        + (scanMarkets minAmount inputs).skippedBelowMin
        + inputs.countP (fun pr =>
            match pr.2 with
            | BalanceRead.readFailed => true
            | _ => false) = inputs.length := by
  intro inputs
  induction inputs with
  | nil => rfl
  | cons head tail ih =>
    obtain ⟨m, r⟩ := head
    cases r with
    | readFailed =>
      simp [scanMarkets, List.countP_cons]
      omega
    | ok y n =>
      by_cases h0 : minBal y n = 0
      · simp [scanMarkets, List.countP_cons, h0]
        omega
      · by_cases h1 : minBal y n < minAmount
        · simp [scanMarkets, List.countP_cons, h0, h1]
          omega
        · simp [scanMarkets, List.countP_cons, h0, h1]
          omega

/-! ### Claim theorems: scanning and accounting -/

/-- Claim C2: for every scanned market with a successful balance pair, the
mergeable amount is the minimum of the two balances, the market is emitted as
an eligible candidate exactly when that amount is positive and at least the
configured minimum, and otherwise it is counted in skippedZero (amount zero)
or skippedBelowMin (positive but below the minimum). -/
theorem claim_C2 (minAmount : Nat) (inputs : List (MarketMetadata × BalanceRead)) :
    (∀ y n : Nat, minBal y n = min y n)
  ∧ (scanMarkets minAmount inputs).candidates = inputs.filterMap (fun pr =>
      match pr.2 with
      | .ok y n =>
        if 0 < minBal y n ∧ minAmount ≤ minBal y n then some ⟨pr.1, minBal y n⟩ else none
      | .readFailed => none)
  ∧ (scanMarkets minAmount inputs).skippedZero = inputs.countP (fun pr =>
      match pr.2 with
      | .ok y n => minBal y n == 0
      | .readFailed => false)
  ∧ (scanMarkets minAmount inputs).skippedBelowMin = inputs.countP (fun pr =>
      match pr.2 with
      | .ok y n => decide (0 < minBal y n ∧ minBal y n < minAmount)
      | .readFailed => false) := by
  refine ⟨fun y n => by unfold minBal; rw [Nat.min_def]; split_ifs <;> omega,
    (scanMarkets_spec minAmount inputs).1,
    (scanMarkets_spec minAmount inputs).2.1,
    (scanMarkets_spec minAmount inputs).2.2⟩

/-- Claim C9 counterexample: a single market whose balance read fails is
dropped by the scan without entering any summary counter; the summary counts
sum to zero although one descriptor was scanned, so not every skip or error is
reflected in the cycle summary counts. -/
theorem claim_C9_counterexample :
    (scanMarkets 10 [(mEx, BalanceRead.readFailed)]).candidates.length
      + (scanMarkets 10 [(mEx, BalanceRead.readFailed)]).skippedZero
      + (scanMarkets 10 [(mEx, BalanceRead.readFailed)]).skippedBelowMin = 0
  ∧ [(mEx, BalanceRead.readFailed)].length = 1 := by
  exact ⟨rfl, rfl⟩

/-- Claim C9 (amended): the scan summary counters account exactly for the
descriptors whose balance reads succeed — eligible plus skippedZero plus
skippedBelowMin plus the number of failed reads equals the number of scanned
descriptors, so a descriptor dropped by a failed balance read appears in no
summary counter and is only logged at the failure site; and each submitted
batch contributes its full size to merged or to errored. -/
theorem claim_C9_amended :
    (∀ (minAmount : Nat) (inputs : List (MarketMetadata × BalanceRead)),
      (scanMarkets minAmount inputs).candidates.length
        + (scanMarkets minAmount inputs).skippedZero
        + (scanMarkets minAmount inputs).skippedBelowMin
        + inputs.countP (fun pr =>
            match pr.2 with
            | BalanceRead.readFailed => true
            | _ => false) = inputs.length)
  ∧ (∀ (size : Nat) (env : Nat → ExecOutcome),
      (runBatch size env).merged + (runBatch size env).errored = size) :=
  ⟨scanMarkets_total,
   fun size env => runBatchAux_merged_errored 3 size env 3 0 (by omega) rfl⟩

/-! ### Claim theorems: the retry loop -/

/-- Claim C4: when every submission of a batch rejects with a persistent
rate-limit error (HTTP 429 whose data.error does not carry the
quota-exhaustion text), the engine sends exactly maxAttempts = 3 submissions
and then fails the batch, adding exactly the batch size to the errored
count. -/
theorem claim_C4 (size : Nat) (env : Nat → ExecOutcome)
    (h : ∀ i, ∃ e, env i = ExecOutcome.execThrows e ∧ e.status = some 429
      ∧ isQuotaExhausted e = false) :
    (runBatch size env).sends = 3 ∧ (runBatch size env).merged = 0
      ∧ (runBatch size env).errored = size ∧ (runBatch size env).succeeded = false := by
  have hr : runBatch size env = ⟨3, 0, 0, size, false, false⟩ :=
    runBatchAux_persistent 3 size env h 3 0 (by omega) (by omega)
  rw [hr]
  exact ⟨rfl, rfl, rfl, rfl⟩

theorem claim_C4_witness :
    (runBatch 5 env429).sends = 3 ∧ (runBatch 5 env429).merged = 0
      ∧ (runBatch 5 env429).errored = 5 ∧ (runBatch 5 env429).succeeded = false :=
  claim_C4 5 env429 (fun _ => ⟨e429, rfl, rfl, by decide⟩)

/-- Claim C10: whenever a submission resolves and its handle yields a non-null
result, the engine credits the whole batch size to the merged count for any
state value whatsoever (the state is never inspected), while a null result is
treated as an error and fails the batch. -/
theorem claim_C10 (m size fuel attempts : Nat) (env : Nat → ExecOutcome) :
    (∀ st h, env attempts = ExecOutcome.waitResult st h →
      runBatchAux m size env (fuel + 1) attempts = ⟨1, 1, size, 0, false, true⟩)
  ∧ (env attempts = ExecOutcome.waitNull →
      runBatchAux m size env (fuel + 1) attempts = ⟨1, 1, 0, size, false, false⟩) := by
  constructor
  · intro st h henv
    simp [runBatchAux, henv]
  · intro henv
    simp [runBatchAux, henv]

theorem claim_C10_witness :
    runBatch 5 envFailedState = ⟨1, 1, 5, 0, false, true⟩
  ∧ runBatch 5 envNullRes = ⟨1, 1, 0, 5, false, false⟩ :=
  ⟨(claim_C10 3 5 2 0 envFailedState).1 "STATE_FAILED" none rfl,
   (claim_C10 3 5 2 0 envNullRes).2 rfl⟩

/-- Claim C1 counterexample: with a batch whose every submission is sent and
rejected by the relay with HTTP 429, three submissions are actually sent but
the quota counter is never incremented, refuting that every sent attempt
increments the counter regardless of outcome. -/
theorem claim_C1_counterexample :
    (runBatch 1 env429).sends = 3 ∧ (runBatch 1 env429).increments = 0
      ∧ (runBatch 1 env429).increments ≠ (runBatch 1 env429).sends := by
  refine ⟨by decide, by decide, by decide⟩

/-- Claim C1 (amended): the quota counter is incremented exactly once per
submission attempt whose relayer execute call resolves — including attempts
whose result wait then fails or yields null — and not at all for an attempt
whose execute call itself rejects; increments equal the number of resolved
sends. -/
theorem claim_C1_amended (size : Nat) (env : Nat → ExecOutcome) :
    (runBatch size env).increments = countResolvedFrom env 0 (runBatch size env).sends :=
  runBatchAux_increments_count 3 size env 3 0

/-! ### Lemmas about batch building -/

lemma ceil_step (bs n : Nat) (hbs : 0 < bs) (hn : 0 < n) :
    (n - bs + bs - 1) / bs + 1 = (n + bs - 1) / bs := by
  rcases Nat.lt_or_ge n bs with hle | hgt
  · have h1 : n - bs + bs - 1 = bs - 1 := by omega
    have h2 : n + bs - 1 = (n - 1) + bs := by omega
    rw [h1, h2, Nat.add_div_right _ hbs,
      Nat.div_eq_of_lt (show bs - 1 < bs by omega),
      Nat.div_eq_of_lt (show n - 1 < bs by omega)]
  · have hc : n - bs + bs = n := Nat.sub_add_cancel hgt
    have h2 : n + bs - 1 = (n - 1) + bs := by omega
    rw [hc, h2, Nat.add_div_right _ hbs]

lemma buildBatchesAux_spec (bs : Nat) (hbs : 0 < bs) :
    ∀ (fuel : Nat) (l : List MergeCandidate), l.length ≤ fuel →
      (buildBatchesAux bs fuel l).length = (l.length + bs - 1) / bs
    ∧ (buildBatchesAux bs fuel l).flatten = l
    ∧ ∀ b ∈ buildBatchesAux bs fuel l, b.length ≤ bs := by
  intro fuel
  induction fuel with
  | zero =>
    intro l hl
    have hnil : l = [] := List.eq_nil_of_length_eq_zero (Nat.le_zero.mp hl)
    subst hnil
    refine ⟨?_, rfl, by simp [buildBatchesAux]⟩
    simp only [buildBatchesAux, List.length_nil]
    rw [Nat.div_eq_of_lt (by omega)]
  | succ f ih =>
    intro l hl
    cases l with
    | nil =>
      refine ⟨?_, rfl, by simp [buildBatchesAux]⟩
      simp only [buildBatchesAux, List.length_nil]
      rw [Nat.div_eq_of_lt (by omega)]
    | cons a t =>
      have hdrop : ((a :: t).drop bs).length ≤ f := by
        rw [List.length_drop]
        simp only [List.length_cons] at hl ⊢
        omega
      obtain ⟨ihl, ihj, ihm⟩ := ih ((a :: t).drop bs) hdrop
      refine ⟨?_, ?_, ?_⟩
      · simp only [buildBatchesAux, List.length_cons, ihl, List.length_drop]
        exact ceil_step bs (t.length + 1) hbs (by omega)
      · simp only [buildBatchesAux, List.flatten_cons, ihj, List.take_append_drop]
      · intro b hb
        simp only [buildBatchesAux, List.mem_cons] at hb
        rcases hb with hb | hb
        · rw [hb, List.length_take]
          exact min_le_left _ _
        · exact ihm b hb

/-! ### Claim theorems: batch building and the quota tracker -/

/-- Claim C3: for a positive maximum batch size the batch builder produces
exactly ceil(n / maxBatchSize) contiguous batches, each of size at most
maxBatchSize, whose concatenation in order is the original candidate list;
the empty input yields no batches. -/
theorem claim_C3 (l : List MergeCandidate) (bs : Nat) (hbs : 0 < bs) :
    (buildBatches bs l).length = (l.length + bs - 1) / bs
  ∧ (buildBatches bs l).flatten = l
  ∧ (∀ b ∈ buildBatches bs l, b.length ≤ bs)
  ∧ buildBatches bs ([] : List MergeCandidate) = [] := by
  obtain ⟨h1, h2, h3⟩ := buildBatchesAux_spec bs hbs l.length l (Nat.le_refl _)
  exact ⟨h1, h2, h3, rfl⟩

theorem claim_C3_witness :
    (0 < 10)
  ∧ (buildBatches 10 l23).length = (l23.length + 10 - 1) / 10
  ∧ (buildBatches 10 l23).flatten = l23
  ∧ (buildBatches 10 l23).map List.length = [10, 10, 3] :=
  ⟨by decide, (claim_C3 l23 10 (by decide)).1, (claim_C3 l23 10 (by decide)).2.1,
   by decide⟩

/-- Claim C8: checkAndUpdate never returns true while the counter has reached
the limit inside a live window; once an hour has elapsed since the window
start it first resets the counter to 0 and the window start to now, hence
returns true whatever the prior counter was (the configured limit is positive:
the configuration default replaces a zero value by 20), and a following
increment sets the counter to 1. -/
theorem claim_C8 (limit now : Nat) (q : QuotaTracker) :
    (now - q.hourStartTime < hourMs → limit ≤ q.callsThisHour →
      (checkAndUpdateQuota limit now q).1 = false)
  ∧ (hourMs ≤ now - q.hourStartTime → 0 < limit →
      checkAndUpdateQuota limit now q = (true, ⟨0, now⟩)
    ∧ (incrementQuota (checkAndUpdateQuota limit now q).2).callsThisHour = 1) := by
  constructor
  · intro h1 h2
    simp only [checkAndUpdateQuota]
    rw [if_neg (by omega)]
    simp
    omega
  · intro h1 h2
    simp only [checkAndUpdateQuota]
    rw [if_pos h1]
    refine ⟨?_, rfl⟩
    simp [h2]

theorem claim_C8_witness :
    checkAndUpdateQuota 20 3600000 ⟨57, 0⟩ = (true, ⟨0, 3600000⟩)
  ∧ (incrementQuota (checkAndUpdateQuota 20 3600000 ⟨57, 0⟩).2).callsThisHour = 1
  ∧ (checkAndUpdateQuota 20 100 ⟨20, 0⟩).1 = false :=
  ⟨((claim_C8 20 3600000 ⟨57, 0⟩).2 (by decide) (by decide)).1,
   ((claim_C8 20 3600000 ⟨57, 0⟩).2 (by decide) (by decide)).2,
   (claim_C8 20 100 ⟨20, 0⟩).1 (by decide) (by decide)⟩

/-! ### Lemmas about the orchestrator batch loop -/

lemma checkAndUpdateQuota_true (limit now : Nat) (q : QuotaTracker)
    (h : (checkAndUpdateQuota limit now q).1 = true) :
    (checkAndUpdateQuota limit now q).2.callsThisHour < limit := by
  simp only [checkAndUpdateQuota, decide_eq_true_eq] at h ⊢
  exact h

lemma checkAndUpdateQuota_calls_le (limit now : Nat) (q : QuotaTracker) :
    (checkAndUpdateQuota limit now q).2.callsThisHour ≤ q.callsThisHour := by
  simp only [checkAndUpdateQuota]
  split
  · exact Nat.zero_le _
  · exact Nat.le_refl _

lemma processBatches_bound (limit : Nat) :
    ∀ (specs : List BatchSpec) (q : QuotaTracker), q.callsThisHour ≤ limit + 2 →
      (∀ p ∈ (processBatches limit q specs).1, p.2.callsThisHour ≤ limit + 2)
    ∧ (processBatches limit q specs).2.callsThisHour ≤ limit + 2 := by
  intro specs
  induction specs with
  | nil =>
    intro q hq
    exact ⟨by simp [processBatches], by simpa [processBatches] using hq⟩
  | cons b rest ih =>
    intro q hq
    by_cases hc : (checkAndUpdateQuota limit b.now q).1 = true
    · have hlt : (checkAndUpdateQuota limit b.now q).2.callsThisHour < limit :=
        checkAndUpdateQuota_true limit b.now q hc
      have hinc : (runBatch b.size b.env).increments ≤ 3 :=
        runBatchAux_increments_le 3 b.size b.env 3 0
      have hq2 : (applyRun limit (checkAndUpdateQuota limit b.now q).2
          (runBatch b.size b.env)).callsThisHour ≤ limit + 2 := by
        unfold applyRun
        split
        · show limit ≤ limit + 2
          omega
        · show (checkAndUpdateQuota limit b.now q).2.callsThisHour
            + (runBatch b.size b.env).increments ≤ limit + 2
          omega
      obtain ⟨ihm, ihf⟩ := ih _ hq2
      constructor
      · intro p hp
        simp only [processBatches, hc, if_true] at hp
        rcases List.mem_cons.mp hp with h | h
        · rw [h]
          exact hq2
        · exact ihm p h
      · simp only [processBatches, hc, if_true]
        exact ihf
    · constructor
      · intro p hp
        simp only [processBatches, hc] at hp
        simp at hp
      · simp [processBatches, hc]
        exact Nat.le_trans (checkAndUpdateQuota_calls_le limit b.now q) hq

/-! ### Claim theorems: quota invariant and exhaustion stop -/

/-- Claim C5 counterexample: starting from a fresh tracker with limit 1, one
batch passes the quota check, its first submission resolves but the result
wait rejects with a plain 429 (incrementing the quota), and the retried
submission succeeds (incrementing again): callsThisHour reaches 2, strictly
above the configured limit, and not through the exhaustion override. -/
theorem claim_C5_counterexample :
    (processBatches 1 ⟨0, 0⟩ [⟨0, 1, envC5⟩]).2.callsThisHour = 2
  ∧ 1 < (processBatches 1 ⟨0, 0⟩ [⟨0, 1, envC5⟩]).2.callsThisHour
  ∧ (runBatch 1 envC5).exhausted = false :=
  ⟨by decide, by decide, by decide⟩

/-- Claim C5 (amended): over any cycle run from a fresh tracker,
callsThisHour never exceeds limit + (maxAttempts - 1) = limit + 2 — it can
pass the plain limit only when a retried attempt follows an execute call that
resolved and was already counted — and the explicit fully-exhausted override
always sets the counter exactly to the limit. -/
theorem claim_C5_amended (limit t0 : Nat) (specs : List BatchSpec) :
    (∀ p ∈ (processBatches limit ⟨0, t0⟩ specs).1, p.2.callsThisHour ≤ limit + 2)
  ∧ (processBatches limit ⟨0, t0⟩ specs).2.callsThisHour ≤ limit + 2
  ∧ (∀ (q : QuotaTracker) (r : RunResult), r.exhausted = true →
      (applyRun limit q r).callsThisHour = limit) := by
  obtain ⟨h1, h2⟩ := processBatches_bound limit specs ⟨0, t0⟩ (Nat.zero_le _)
  exact ⟨h1, h2, fun q r hr => by simp [applyRun, hr]⟩

theorem claim_C5_amended_witness :
    (processBatches 1 ⟨0, 0⟩ [⟨0, 1, envC5⟩]).2.callsThisHour ≤ 1 + 2
  ∧ (applyRun 1 ⟨0, 0⟩ ⟨1, 0, 0, 1, true, false⟩).callsThisHour = 1 :=
  ⟨(claim_C5_amended 1 0 [⟨0, 1, envC5⟩]).2.1,
   (claim_C5_amended 1 0 []).2.2 ⟨0, 0⟩ ⟨1, 0, 0, 1, true, false⟩ rfl⟩

/-- Claim C7 counterexample: first, an error that reports zero units remaining
only in its message field (not in data.error) does not trigger the exhaustion
override and both batches of the cycle are still submitted; second, even after
a genuine data.error exhaustion, a batch whose quota check happens after the
hour window has elapsed is submitted again within the same cycle. -/
theorem claim_C7_counterexample :
    isQuotaExhausted eMsgOnly = false
  ∧ containsSub exhaustPat (errMessage eMsgOnly).data = true
  ∧ eMsgOnly.status = some 429
  ∧ (runBatch 1 envMsgOnly).exhausted = false
  ∧ (processBatches 5 ⟨0, 0⟩ [⟨0, 1, envMsgOnly⟩, ⟨0, 1, envMsgOnly⟩]).1.length = 2
  ∧ (runBatch 1 envExh).exhausted = true
  ∧ (processBatches 1 ⟨0, 0⟩ [⟨0, 1, envExh⟩, ⟨hourMs, 1, envExh⟩]).1.length = 2 :=
  ⟨by decide, by decide, by decide, by decide, by decide, by decide, by decide⟩

/-- Claim C7 (amended): whenever a rate-limited error whose data.error field
contains the text 0 units remaining rejects a submission of a batch — on the
first attempt, on any retried attempt after retryable failures, or from the
result wait of an execute call that resolved — the retry loop stops at once
with the batch Failed and nothing merged, the full batch size is added to the
errored count, the tracker counter is force-set to the configured limit, and
no later batch of the cycle is submitted as long as the later quota checks
happen before the hour window elapses. -/
theorem claim_C7_amended :
    (∀ (size k : Nat) (env : Nat → ExecOutcome), k < 3 →
      (∀ i, i < k → retryStep (env i)) → exhaustReject (env k) →
      runBatch size env
        = ⟨k + 1, countResolvedFrom env 0 (k + 1), 0, size, true, false⟩)
  ∧ (∀ (limit : Nat) (q : QuotaTracker) (b : BatchSpec) (rest : List BatchSpec),
      (checkAndUpdateQuota limit b.now q).1 = true →
      (runBatch b.size b.env).exhausted = true →
      (∀ s ∈ rest,
        s.now - (checkAndUpdateQuota limit b.now q).2.hourStartTime < hourMs) →
      (runBatch b.size b.env).errored = b.size
    ∧ (processBatches limit q (b :: rest)).1.length = 1
    ∧ (processBatches limit q (b :: rest)).2.callsThisHour = limit) := by
  constructor
  · intro size k env hk hretry hex
    exact runBatchAux_exhaust_at 3 size env k 3 0 (by omega) (by omega)
      (fun i hi => by rw [Nat.zero_add]; exact hretry i hi)
      (by rw [Nat.zero_add]; exact hex)
  · intro limit q b rest hc hex hw
    have herr := runBatchAux_exhausted_errored 3 b.size b.env 3 0 hex
    have hq2 : applyRun limit (checkAndUpdateQuota limit b.now q).2
        (runBatch b.size b.env)
        = ⟨limit, (checkAndUpdateQuota limit b.now q).2.hourStartTime⟩ := by
      unfold applyRun
      rw [if_pos hex]
    have hnext : processBatches limit
        (⟨limit, (checkAndUpdateQuota limit b.now q).2.hourStartTime⟩ : QuotaTracker) rest
        = ([], ⟨limit, (checkAndUpdateQuota limit b.now q).2.hourStartTime⟩) := by
      cases rest with
      | nil => rfl
      | cons s rest2 =>
        have hwin := hw s (List.mem_cons_self s rest2)
        simp only [checkAndUpdateQuota] at hwin
        have hf : (checkAndUpdateQuota limit s.now
            (⟨limit, (checkAndUpdateQuota limit b.now q).2.hourStartTime⟩ : QuotaTracker)).1
            = false := by
          simp only [checkAndUpdateQuota]
          rw [if_neg (by omega)]
          simp
        have hsnd : (checkAndUpdateQuota limit s.now
            (⟨limit, (checkAndUpdateQuota limit b.now q).2.hourStartTime⟩ : QuotaTracker)).2
            = ⟨limit, (checkAndUpdateQuota limit b.now q).2.hourStartTime⟩ := by
          simp only [checkAndUpdateQuota]
          rw [if_neg (by omega)]
        simp only [processBatches, hf, Bool.false_eq_true, if_false, hsnd]
    refine ⟨herr.1, ?_, ?_⟩
    · simp [processBatches, hc, hq2, hnext]
    · simp [processBatches, hc, hq2, hnext]

theorem claim_C7_amended_witness :
    runBatch 2 envRetryExh = ⟨2, 1, 0, 2, true, false⟩
  ∧ (runBatch 2 envRetryExh).errored = 2
  ∧ (processBatches 5 ⟨0, 0⟩ [⟨0, 2, envRetryExh⟩, ⟨10, 2, envRetryExh⟩]).1.length = 1
  ∧ (processBatches 5 ⟨0, 0⟩
      [⟨0, 2, envRetryExh⟩, ⟨10, 2, envRetryExh⟩]).2.callsThisHour = 5 := by
  have h1 := claim_C7_amended.1 2 1 envRetryExh (by omega)
    (fun i hi => by
      have hi0 : i = 0 := by omega
      subst hi0
      exact ⟨e429, Or.inr (by simp [envRetryExh]), by decide, by decide⟩)
    ⟨eExh, Or.inl (by simp [envRetryExh]), rfl, by decide⟩
  have h2 := claim_C7_amended.2 5 ⟨0, 0⟩ ⟨0, 2, envRetryExh⟩ [⟨10, 2, envRetryExh⟩]
    (by decide) (by decide) (by decide)
  exact ⟨h1.trans (by decide), h2.1, h2.2.1, h2.2.2⟩

/-! ### Lemmas about the reset-hint parser -/

lemma lcChar_space_not_digit (c : Char) (h : lcChar c = ' ') : isDigitChar c = false := by
  unfold lcChar at h
  by_cases hc : 65 ≤ c.toNat ∧ c.toNat ≤ 90
  · obtain ⟨h65, _⟩ := hc
    unfold isDigitChar
    have h57 : decide (c.toNat ≤ 57) = false := by
      simp only [decide_eq_false_iff_not]
      omega
    rw [h57, Bool.and_false]
  · rw [if_neg hc] at h
    subst h
    rfl

lemma ciPrefixRest_sound : ∀ (pat cs rest : List Char),
    ciPrefixRest pat cs = some rest → ∃ p, cs = p ++ rest ∧ p.map lcChar = pat := by
  intro pat
  induction pat with
  | nil =>
    intro cs rest h
    simp only [ciPrefixRest, Option.some.injEq] at h
    exact ⟨[], by simp [h], rfl⟩
  | cons a ps ih =>
    intro cs rest h
    cases cs with
    | nil => simp [ciPrefixRest] at h
    | cons c cs2 =>
      simp only [ciPrefixRest] at h
      by_cases hl : lcChar c = a
      · rw [if_pos hl] at h
        obtain ⟨p, hp1, hp2⟩ := ih cs2 rest h
        exact ⟨c :: p, by simp [hp1], by simp [hp2, hl]⟩
      · rw [if_neg hl] at h
        simp at h

lemma ciPrefixRest_complete : ∀ (p rest : List Char),
    ciPrefixRest (p.map lcChar) (p ++ rest) = some rest := by
  intro p
  induction p with
  | nil => intro rest; rfl
  | cons c p2 ih =>
    intro rest
    simp only [List.map_cons, List.cons_append, ciPrefixRest, if_pos rfl]
    exact ih rest

lemma drop_length_takeWhile (p : Char → Bool) : ∀ l : List Char,
    l.drop (l.takeWhile p).length = l.dropWhile p := by
  intro l
  induction l with
  | nil => rfl
  | cons a t ih =>
    by_cases ha : p a
    · rw [List.takeWhile_cons_of_pos ha, List.dropWhile_cons_of_pos ha,
        List.length_cons, List.drop_succ_cons]
      exact ih
    · rw [List.takeWhile_cons_of_neg ha, List.dropWhile_cons_of_neg ha]
      rfl

lemma takeWhile_all_append (p : Char → Bool) : ∀ (l1 l2 : List Char),
    (∀ c ∈ l1, p c = true) → (∀ c, l2.head? = some c → p c = false) →
    (l1 ++ l2).takeWhile p = l1 := by
  intro l1
  induction l1 with
  | nil =>
    intro l2 _ h2
    cases l2 with
    | nil => rfl
    | cons b t =>
      have hb := h2 b rfl
      simp only [List.nil_append]
      rw [List.takeWhile_cons_of_neg (by simp [hb])]
  | cons a t ih =>
    intro l2 h1 h2
    have ha : p a = true := h1 a (List.mem_cons_self a t)
    simp only [List.cons_append, List.takeWhile_cons_of_pos ha]
    rw [ih l2 (fun c hc => h1 c (List.mem_cons_of_mem a hc)) h2]

lemma matchResetAt_sound (cs : List Char) (n : Nat) (h : matchResetAt cs = some n) :
    specResetHintAt cs n := by
  unfold matchResetAt at h
  cases hcp : ciPrefixRest resetPat cs with
  | none => simp [hcp] at h
  | some rest =>
    simp only [hcp] at h
    by_cases hds : rest.takeWhile isDigitChar = []
    · simp [hds] at h
    · simp only [hds, if_false] at h
      cases hcs : ciPrefixRest secondsPat
          (rest.drop (rest.takeWhile isDigitChar).length) with
      | none => simp [hcs] at h
      | some tail2 =>
        simp only [hcs, Option.some.injEq] at h
        obtain ⟨p, hcs1, hp⟩ := ciPrefixRest_sound resetPat cs rest hcp
        obtain ⟨sseg, hs1, hsmap⟩ := ciPrefixRest_sound secondsPat _ tail2 hcs
        have hsplit : rest.takeWhile isDigitChar
            ++ rest.drop (rest.takeWhile isDigitChar).length = rest := by
          rw [drop_length_takeWhile]
          exact List.takeWhile_append_dropWhile isDigitChar rest
        rw [hs1] at hsplit
        refine ⟨p, rest.takeWhile isDigitChar, sseg, tail2, ?_, hp, hds,
          fun c hc => List.mem_takeWhile_imp hc, hsmap, h⟩
        refine (hcs1.trans (congrArg (fun x => p ++ x) hsplit.symm)).trans ?_
        simp [List.append_assoc]

lemma matchResetAt_complete (cs : List Char) (n : Nat) (h : specResetHintAt cs n) :
    matchResetAt cs = some n := by
  obtain ⟨p, ds, sseg, post, hcs, hp, hne, hdig, hsmap, hval⟩ := h
  have hsne : sseg ≠ [] := by
    intro hcon
    rw [hcon] at hsmap
    simp only [List.map_nil] at hsmap
    exact absurd hsmap.symm (by decide)
  obtain ⟨c0, s2, hs0⟩ := List.exists_cons_of_ne_nil hsne
  have hc0 : lcChar c0 = ' ' := by
    rw [hs0] at hsmap
    rw [show secondsPat = ' ' :: "seconds".data from by decide] at hsmap
    simp only [List.map_cons, List.cons.injEq] at hsmap
    exact hsmap.1
  have hc0d : isDigitChar c0 = false := lcChar_space_not_digit c0 hc0
  subst hcs
  have hassoc : p ++ ds ++ sseg ++ post = p ++ (ds ++ (sseg ++ post)) := by
    simp [List.append_assoc]
  rw [hassoc]
  unfold matchResetAt
  have hcp : ciPrefixRest resetPat (p ++ (ds ++ (sseg ++ post)))
      = some (ds ++ (sseg ++ post)) := by
    rw [← hp]
    exact ciPrefixRest_complete p _
  simp only [hcp]
  have htw : (ds ++ (sseg ++ post)).takeWhile isDigitChar = ds := by
    apply takeWhile_all_append isDigitChar ds (sseg ++ post) hdig
    intro c hc
    rw [hs0] at hc
    simp only [List.cons_append, List.head?_cons, Option.some.injEq] at hc
    rw [← hc]
    exact hc0d
  rw [htw, if_neg hne]
  have hdrop : (ds ++ (sseg ++ post)).drop ds.length = sseg ++ post :=
    List.drop_left ds (sseg ++ post)
  rw [hdrop]
  have hcs2 : ciPrefixRest secondsPat (sseg ++ post) = some post := by
    rw [← hsmap]
    exact ciPrefixRest_complete sseg post
  simp only [hcs2, hval]

lemma scanReset_sound : ∀ (cs : List Char) (n : Nat),
    scanReset cs = some n → specHasResetHint cs n := by
  intro cs
  induction cs with
  | nil => intro n h; simp [scanReset] at h
  | cons c rest ih =>
    intro n h
    simp only [scanReset] at h
    cases hm : matchResetAt (c :: rest) with
    | some k =>
      simp only [hm, Option.some.injEq] at h
      subst h
      exact ⟨[], c :: rest, rfl, matchResetAt_sound _ _ hm⟩
    | none =>
      simp only [hm] at h
      obtain ⟨pre, suf, heq, ha⟩ := ih n h
      exact ⟨c :: pre, suf, by rw [heq]; rfl, ha⟩

lemma scanReset_complete : ∀ (pre suf : List Char) (n : Nat), specResetHintAt suf n →
    (scanReset (pre ++ suf)).isSome = true := by
  intro pre
  induction pre with
  | nil =>
    intro suf n ha
    have hm := matchResetAt_complete suf n ha
    obtain ⟨p, ds, sseg, post, hcs, hp, _, _, _, _⟩ := ha
    have hpne : p ≠ [] := by
      intro hcon
      rw [hcon] at hp
      simp only [List.map_nil] at hp
      exact absurd hp.symm (by decide)
    have hsufne : suf ≠ [] := by
      rw [hcs]
      cases p with
      | nil => exact absurd rfl hpne
      | cons a b => simp
    obtain ⟨c, rest2, hc⟩ := List.exists_cons_of_ne_nil hsufne
    rw [List.nil_append, hc]
    rw [hc] at hm
    simp only [scanReset, hm]
    rfl
  | cons a pre2 ih =>
    intro suf n ha
    simp only [List.cons_append, scanReset]
    cases hm : matchResetAt (a :: (pre2 ++ suf)) with
    | some k => simp [hm]
    | none =>
      simp only [hm]
      exact ih suf n ha

lemma scanReset_complete_contains (cs : List Char) (n : Nat)
    (h : specHasResetHint cs n) : (scanReset cs).isSome = true := by
  obtain ⟨pre, suf, heq, ha⟩ := h
  rw [heq]
  exact scanReset_complete pre suf n ha

/-! ### Claim theorem: the backoff computation -/

/-- Claim C6: a submission error with HTTP status 429 whose combined message
(data.error, else error, else message) contains a machine-readable hint of
the form resets in N seconds yields a computed backoff of (N + 5) seconds
(for the hint the parser selects); a 429 without any parseable hint yields
60000 ms; an error whose status is not 429 yields no backoff. Concretely,
status 429 with message resets in 12 seconds gives 17000 ms, a hintless 429
gives 60000 ms, and status 500 gives none. -/
theorem claim_C6 (e : RelayError) :
    (e.status ≠ some 429 → getRelayerBackoffMs e = none)
  ∧ (e.status = some 429 → ∀ n, specHasResetHint (errMessage e).data n →
      ∃ m, specHasResetHint (errMessage e).data m
        ∧ getRelayerBackoffMs e = some ((m + 5) * 1000))
  ∧ (e.status = some 429 → (∀ n, ¬ specHasResetHint (errMessage e).data n) →
      getRelayerBackoffMs e = some 60000)
  ∧ getRelayerBackoffMs eHint = some 17000
  ∧ getRelayerBackoffMs eNoHint = some 60000
  ∧ getRelayerBackoffMs eServer = none := by
  refine ⟨?_, ?_, ?_, by decide, by decide, by decide⟩
  · intro h
    unfold getRelayerBackoffMs
    rw [if_neg h]
  · intro hs n hn
    unfold getRelayerBackoffMs
    rw [if_pos hs]
    cases hscan : scanReset (errMessage e).data with
    | some m =>
      refine ⟨m, scanReset_sound _ m hscan, ?_⟩
      simp only [hscan]
    | none =>
      have h2 := scanReset_complete_contains _ n hn
      rw [hscan] at h2
      simp at h2
  · intro hs hnone
    unfold getRelayerBackoffMs
    rw [if_pos hs]
    cases hscan : scanReset (errMessage e).data with
    | some m => exact absurd (scanReset_sound _ m hscan) (hnone m)
    | none => simp only [hscan]

theorem claim_C6_witness :
    (∃ m, specHasResetHint (errMessage eHint).data m
      ∧ getRelayerBackoffMs eHint = some ((m + 5) * 1000))
  ∧ getRelayerBackoffMs eNoHint = some 60000
  ∧ getRelayerBackoffMs eServer = none := by
  refine ⟨(claim_C6 eHint).2.1 rfl 12 ?_, (claim_C6 eNoHint).2.2.1 rfl ?_,
    (claim_C6 eServer).1 (by decide)⟩
  · exact ⟨[], (errMessage eHint).data, rfl, "resets in ".data, ['1', '2'],
      " seconds".data, [], by decide, by decide, by decide, by decide, by decide,
      by decide⟩
  · intro n hn
    have h2 := scanReset_complete_contains _ n hn
    rw [show scanReset (errMessage eNoHint).data = none from by decide] at h2
    simp at h2

end PmMerge
